import Mathlib

/-!  Verification of the generalized Tic-Tac-Toe engine (TicTacToe.py) and
its minimax bot (Bot.py): a shallow embedding of the game state, the move
logic, win detection, the heuristic evaluator and the alpha-beta search,
together with theorems checking the specification's claims about them.  -/

namespace TTT

/-- A board coordinate `(row, col)` as produced by the engine itself
(`available_moves`, the winning-line extraction): always non-negative. -/
abbrev Point := ℕ × ℕ

/-- Python floats as Bot.py uses them: `float("-inf")` is `⊥`,
`float("inf")` is `⊤`, and every other score the bot ever computes is an
exact sum of halves and tens, so a rational models the float arithmetic
faithfully (no rounding ever occurs). -/
abbrev Score := WithBot (WithTop ℚ)

/-- A finite score. -/
def fin (q : ℚ) : Score := ((q : WithTop ℚ) : Score)

/-- Grid from TicTacToe.py: a square grid of integers representing the
board, `values` the two-dimensional array, `size` its dimension. -/
structure Grid where
  size : ℕ
  values : List (List ℕ)
deriving DecidableEq

/-- Grid.__init__: a size × size grid of zeros. -/
def Grid.init (size : ℕ) : Grid :=
  ⟨size, List.replicate size (List.replicate size 0)⟩

/-- Python list indexing `l[i]`: a negative index counts from the end,
anything still out of range is an IndexError. -/
def pyIndex {α : Type} (l : List α) (i : ℤ) : Except String α :=
  let j : ℤ := if i < 0 then i + l.length else i
  if 0 ≤ j then
    match l.get? j.toNat with
    | some a => .ok a
    | none => .error "IndexError"
  else .error "IndexError"

/-- Python list item assignment `l[i] = v`, with the same index rules. -/
def pySet {α : Type} (l : List α) (i : ℤ) (v : α) : Except String (List α) :=
  let j : ℤ := if i < 0 then i + l.length else i
  if 0 ≤ j ∧ j.toNat < l.length then .ok (l.set j.toNat v)
  else .error "IndexError"

/-- Grid.get_cell exactly as the source writes it: the guard raises the
ValueError only when BOTH coordinates are out of range (`and` in the
source), after which plain Python list indexing applies. -/
def Grid.get_cell (g : Grid) (loc : ℤ × ℤ) : Except String ℕ :=
  if (0 > loc.1 ∨ loc.1 ≥ (g.size : ℤ)) ∧ (0 > loc.2 ∨ loc.2 ≥ (g.size : ℤ)) then
    .error "ValueError: Trying to get value outside of Grid"
  else do
    let row ← pyIndex g.values loc.1
    pyIndex row loc.2

/-- Grid.change_value exactly as the source writes it (same `and` guard);
the returned grid is the mutated one. -/
def Grid.change_value (g : Grid) (loc : ℤ × ℤ) (v : ℕ) : Except String Grid :=
  if (0 > loc.1 ∨ loc.1 ≥ (g.size : ℤ)) ∧ (0 > loc.2 ∨ loc.2 ≥ (g.size : ℤ)) then
    .error "ValueError: Trying to change value outside of Grid"
  else do
    let row ← pyIndex g.values loc.1
    let row' ← pySet row loc.2 v
    let values' ← pySet g.values loc.1 row'
    pure { g with values := values' }

/-- In-bounds cell read `values[r][c]` for 0 ≤ r, c < size; on such
coordinates it agrees with `Grid.get_cell` (theorem `get_cell_agrees`). -/
def Grid.cell (g : Grid) (r c : ℕ) : ℕ := (g.values.getD r []).getD c 0

/-- In-bounds cell write `values[r][c] = v`; on in-bounds coordinates it
agrees with `Grid.change_value` (theorem `change_value_agrees`). -/
def Grid.setCell (g : Grid) (r c v : ℕ) : Grid :=
  { g with values := g.values.set r ((g.values.getD r []).set c v) }

/-- Grid.transposed_values, i.e. `zip(*values)`: on a well-formed
size × size grid this lists column c as row c, which is what the map below
computes. -/
def Grid.transposed_values (g : Grid) : List (List ℕ) :=
  (List.range g.size).map fun c => g.values.map fun row => row.getD c 0

/-- Grid.full: no zero (free cell) anywhere. -/
def Grid.full (g : Grid) : Bool :=
  g.values.all fun row => !row.contains 0

/-- TicTacToe game state (class TicTacToe). -/
structure TicTacToe where
  num_players : ℕ
  size : ℕ
  cur_player : ℕ
  grid : Grid
deriving DecidableEq

/-- TicTacToe.__init__ with its validity checks, in source order. -/
def TicTacToe.make (num_players size : ℕ) : Except String TicTacToe :=
  if num_players < 2 then .error "Too few players to play game"
  else if num_players > 4 then .error "Too many players to play game"
  else if size < 3 then .error "Board is too small for a valid game"
  else if size > 7 then .error "Board is too large to play game"
  else if size = 3 ∧ num_players > 2 then
    .error "Size must be greater than 3 for a game with more than 2 players"
  else .ok ⟨num_players, size, 1, Grid.init size⟩

/-- The source's row/column test `all(x == row[0] for x in row) and
(row[0] != 0)` on the list of a row's (or column's) values. -/
def lineWin (row : List ℕ) : Bool :=
  (row.all fun x => x == row.getD 0 0) && (row.getD 0 0 != 0)

/-- The main-diagonal test from the source:
`all(values[i][i] == values[0][0]) and values[0][0] != 0`. -/
def TicTacToe.diag_win (t : TicTacToe) : Bool :=
  ((List.range t.size).all fun i => t.grid.cell i i == t.grid.cell 0 0) &&
    (t.grid.cell 0 0 != 0)

/-- The anti-diagonal test from the source:
`all(values[size-1-i][i] == values[size-1][0]) and values[size-1][0] != 0`. -/
def TicTacToe.anti_diag_win (t : TicTacToe) : Bool :=
  ((List.range t.size).all fun i =>
      t.grid.cell (t.size - 1 - i) i == t.grid.cell (t.size - 1) 0) &&
    (t.grid.cell (t.size - 1) 0 != 0)

/-- TicTacToe.game_over: full grid, a diagonal, a row or a column. -/
def TicTacToe.game_over (t : TicTacToe) : Bool :=
  if t.grid.full then true
  else if t.diag_win then true
  else if t.anti_diag_win then true
  else if t.grid.values.any lineWin then true
  else if t.grid.transposed_values.any lineWin then true
  else false

/-- TicTacToe.winning_line: diagonal, anti-diagonal, first winning row,
first winning column, `[]` on a full grid, else `none`. -/
def TicTacToe.winning_line (t : TicTacToe) : Option (List Point) :=
  if t.diag_win then some ((List.range t.size).map fun i => (i, i))
  else if t.anti_diag_win then
    some ((List.range t.size).map fun i => (t.size - 1 - i, i))
  else
    match (List.range t.size).find? (fun r => lineWin (t.grid.values.getD r [])) with
    | some r => some ((List.range t.size).map fun i => (r, i))
    | none =>
      match (List.range t.size).find?
          (fun c => lineWin (t.grid.transposed_values.getD c [])) with
      | some c => some ((List.range t.size).map fun i => (i, c))
      | none => if t.grid.full then some [] else none

/-- TicTacToe.winners: `[]` while no line, `[1..num_players]` on the tie
sentinel, otherwise the value at the line's first coordinate. -/
def TicTacToe.winners (t : TicTacToe) : List ℕ :=
  match t.winning_line with
  | none => []
  | some [] => (List.range t.num_players).map (· + 1)
  | some (p :: _) => [t.grid.cell p.1 p.2]

/-- TicTacToe.try_move on an in-bounds move: the success flag and the
resulting state (the unchanged state on an occupied cell). -/
def TicTacToe.try_move (t : TicTacToe) (move : Point) : Bool × TicTacToe :=
  if t.grid.cell move.1 move.2 != 0 then (false, t)
  else (true,
    { t with grid := t.grid.setCell move.1 move.2 t.cur_player,
             cur_player := t.cur_player % t.num_players + 1 })

/-- The state after try_move: the bot's `game_copy = game.copy();
game_copy.try_move(move)` idiom (copying is value semantics here). -/
def TicTacToe.play (t : TicTacToe) (move : Point) : TicTacToe :=
  (t.try_move move).2

/-- TicTacToe.available_moves: row-major scan of the empty cells. -/
def TicTacToe.available_moves (t : TicTacToe) : List Point :=
  (List.range t.size).flatMap fun r =>
    (List.range t.size).filterMap fun c =>
      if t.grid.cell r c = 0 then some (r, c) else none

/-- Bot (Bot.py): the game it is playing and its player number. -/
structure Bot where
  game : TicTacToe
  player : ℕ

/-- Bot.evaluate_state: the heuristic leaf evaluator. -/
def Bot.evaluate_state (game : TicTacToe) (player : ℕ) : ℚ :=
  if game.winners = [player] then 10
  else if game.winners.length = 1 then -10
  else if game.winners.length > 1 then 0
  else
    game.available_moves.foldl (fun score move =>
      if (game.play move).winners = [player] then score + 0.5
      else if (game.play move).winners.length = 1 then score - 0.5
      else score) 0

/-- The maximizing loop of Bot.minimax: running best `max_eval`, window
(alpha, beta), `break` as soon as beta ≤ alpha; `ev` is the recursive call
one level down. -/
def abMax (ev : TicTacToe → Score → Score → Score) (game : TicTacToe) :
    List Point → Score → Score → Score → Score
  | [], best, _, _ => best
  | move :: rest, best, alpha, beta =>
    let e := ev (game.play move) alpha beta
    let best' := max best e
    let alpha' := max alpha e
    if beta ≤ alpha' then best' else abMax ev game rest best' alpha' beta

/-- The minimizing loop of Bot.minimax, mirror image of `abMax`. -/
def abMin (ev : TicTacToe → Score → Score → Score) (game : TicTacToe) :
    List Point → Score → Score → Score → Score
  | [], best, _, _ => best
  | move :: rest, best, alpha, beta =>
    let e := ev (game.play move) alpha beta
    let best' := min best e
    let beta' := min beta e
    if beta' ≤ alpha then best' else abMin ev game rest best' alpha beta'

/-- Bot.minimax: depth-bounded minimax with alpha-beta pruning. -/
def Bot.minimax (b : Bot) : ℕ → TicTacToe → Bool → Score → Score → Score
  | 0, game, _, _, _ => fin (Bot.evaluate_state game b.player)
  | depth + 1, game, maximizing, alpha, beta =>
    if game.game_over then fin (Bot.evaluate_state game b.player)
    else if maximizing then
      abMax (fun g a bb => b.minimax depth g false a bb) game
        game.available_moves ⊥ alpha beta
    else
      abMin (fun g a bb => b.minimax depth g true a bb) game
        game.available_moves ⊤ alpha beta

/-- The root depth budget in Bot.get_move: `len(available_moves)` on a 3×3
board, `min(8 - size, len(available_moves))` otherwise (`n` is the length
of the available-move list). -/
def Bot.root_depth (b : Bot) (n : ℕ) : ℕ :=
  if b.game.size = 3 then n else min (8 - b.game.size) n

/-- Bot.get_move: score each available move (row-major) at the root depth
with the full window and keep the first strict improvement; `none` models
the Python `best_move` variable never being assigned. -/
def Bot.get_move (b : Bot) : Option Point :=
  let available_moves := b.game.available_moves
  (available_moves.foldl (fun acc move =>
    let game_copy := b.game.play move
    let e := b.minimax (b.root_depth available_moves.length) game_copy false ⊥ ⊤
    if acc.1 < e then (e, some move) else acc) (⊥, none)).2

/-- Unpruned full minimax at the same depth with the same leaf evaluator:
the reference recursion the specification compares the pruned search to. -/
def fullMinimax (player : ℕ) : ℕ → TicTacToe → Bool → Score
  | 0, game, _ => fin (Bot.evaluate_state game player)
  | depth + 1, game, maximizing =>
    if game.game_over then fin (Bot.evaluate_state game player)
    else if maximizing then
      (game.available_moves.map fun m =>
        fullMinimax player depth (game.play m) false).foldl max ⊥
    else
      (game.available_moves.map fun m =>
        fullMinimax player depth (game.play m) true).foldl min ⊤

/-- Well-formedness of a game state: the grid really is size × size. Every
state the constructor produces satisfies it and try_move preserves it. -/
def WF (t : TicTacToe) : Prop :=
  t.grid.size = t.size ∧ t.grid.values.length = t.size ∧
    ∀ row ∈ t.grid.values, row.length = t.size

section FoldOrder

variable {α : Type} [LinearOrder α]

theorem foldl_max_le_iff (l : List α) (b c : α) :
    l.foldl max b ≤ c ↔ b ≤ c ∧ ∀ x ∈ l, x ≤ c := by
  induction l generalizing b with
  | nil => simp
  | cons a l ih =>
    simp only [List.foldl_cons, ih, max_le_iff, List.mem_cons]
    constructor
    · rintro ⟨⟨hb, ha⟩, h⟩
      exact ⟨hb, fun x hx => hx.elim (fun e => e ▸ ha) (h x)⟩
    · rintro ⟨hb, h⟩
      exact ⟨⟨hb, h a (Or.inl rfl)⟩, fun x hx => h x (Or.inr hx)⟩

theorem le_foldl_max (l : List α) (b : α) : b ≤ l.foldl max b :=
  ((foldl_max_le_iff l b _).mp le_rfl).1

theorem elem_le_foldl_max {l : List α} {x : α} (b : α) (hx : x ∈ l) :
    x ≤ l.foldl max b :=
  ((foldl_max_le_iff l b _).mp le_rfl).2 x hx

theorem foldl_max_mem (l : List α) (b : α) :
    l.foldl max b = b ∨ l.foldl max b ∈ l := by
  induction l generalizing b with
  | nil => exact Or.inl rfl
  | cons a l ih =>
    rw [List.foldl_cons]
    rcases ih (max b a) with h | h
    · rcases max_choice b a with hc | hc
      · exact Or.inl (h.trans hc)
      · exact Or.inr (List.mem_cons.mpr (Or.inl (h.trans hc)))
    · exact Or.inr (List.mem_cons.mpr (Or.inr h))

theorem foldl_max_mono {b b' : α} (l : List α) (h : b ≤ b') :
    l.foldl max b ≤ l.foldl max b' := by
  rw [foldl_max_le_iff]
  exact ⟨h.trans (le_foldl_max l b'), fun x hx => elem_le_foldl_max b' hx⟩

theorem le_foldl_min_iff (l : List α) (b c : α) :
    c ≤ l.foldl min b ↔ c ≤ b ∧ ∀ x ∈ l, c ≤ x := by
  induction l generalizing b with
  | nil => simp
  | cons a l ih =>
    simp only [List.foldl_cons, ih, le_min_iff, List.mem_cons]
    constructor
    · rintro ⟨⟨hb, ha⟩, h⟩
      exact ⟨hb, fun x hx => hx.elim (fun e => e ▸ ha) (h x)⟩
    · rintro ⟨hb, h⟩
      exact ⟨⟨hb, h a (Or.inl rfl)⟩, fun x hx => h x (Or.inr hx)⟩

theorem foldl_min_le (l : List α) (b : α) : l.foldl min b ≤ b :=
  ((le_foldl_min_iff l b _).mp le_rfl).1

theorem foldl_min_le_elem {l : List α} {x : α} (b : α) (hx : x ∈ l) :
    l.foldl min b ≤ x :=
  ((le_foldl_min_iff l b _).mp le_rfl).2 x hx

theorem foldl_min_mem (l : List α) (b : α) :
    l.foldl min b = b ∨ l.foldl min b ∈ l := by
  induction l generalizing b with
  | nil => exact Or.inl rfl
  | cons a l ih =>
    rw [List.foldl_cons]
    rcases ih (min b a) with h | h
    · rcases min_choice b a with hc | hc
      · exact Or.inl (h.trans hc)
      · exact Or.inr (List.mem_cons.mpr (Or.inl (h.trans hc)))
    · exact Or.inr (List.mem_cons.mpr (Or.inr h))

theorem foldl_min_mono {b b' : α} (l : List α) (h : b ≤ b') :
    l.foldl min b ≤ l.foldl min b' := by
  rw [le_foldl_min_iff]
  exact ⟨(foldl_min_le l b).trans h, fun x hx => foldl_min_le_elem b hx⟩

end FoldOrder

/-- Fail-soft correctness data for one alpha-beta node: inside the window
(a, bt), the returned value `r` bounds the true minimax value `v` from
above when it fails low, from below when it fails high, and is exact when
it lands strictly inside the window. -/
def ABApprox (r v a bt : Score) : Prop :=
  (r ≤ a → v ≤ r) ∧ (bt ≤ r → r ≤ v) ∧ (a < r → r < bt → r = v)

theorem ABApprox_refl (r a bt : Score) : ABApprox r r a bt :=
  ⟨fun _ => le_rfl, fun _ => le_rfl, fun _ _ => rfl⟩

theorem abMax_ge_best (ev : TicTacToe → Score → Score → Score) (game : TicTacToe) :
    ∀ (moves : List Point) (best alpha beta : Score),
      best ≤ abMax ev game moves best alpha beta := by
  intro moves
  induction moves with
  | nil => intro best alpha beta; exact le_rfl
  | cons m rest ih =>
    intro best alpha beta
    simp only [abMax]
    split
    · exact le_max_left _ _
    · exact (le_max_left _ _).trans (ih _ _ _)

theorem abMin_le_best (ev : TicTacToe → Score → Score → Score) (game : TicTacToe) :
    ∀ (moves : List Point) (best alpha beta : Score),
      abMin ev game moves best alpha beta ≤ best := by
  intro moves
  induction moves with
  | nil => intro best alpha beta; exact le_rfl
  | cons m rest ih =>
    intro best alpha beta
    simp only [abMin]
    split
    · exact min_le_left _ _
    · exact (ih _ _ _).trans (min_le_left _ _)

theorem abMax_approx (ev : TicTacToe → Score → Score → Score) (tv : TicTacToe → Score)
    (game : TicTacToe) :
    ∀ (moves : List Point) (best alpha beta : Score), alpha < beta → best ≤ alpha →
      (∀ m ∈ moves, ∀ a bt, a < bt →
        ABApprox (ev (game.play m) a bt) (tv (game.play m)) a bt) →
      ABApprox (abMax ev game moves best alpha beta)
        ((moves.map fun m => tv (game.play m)).foldl max best) alpha beta := by
  intro moves
  induction moves with
  | nil =>
    intro best alpha beta _ _ _
    exact ABApprox_refl _ _ _
  | cons m rest ih =>
    intro best alpha beta hab hba hch
    have hm := hch m (List.mem_cons_self m rest) alpha beta hab
    simp only [abMax, List.map_cons, List.foldl_cons]
    set e := ev (game.play m) alpha beta with he
    set t := tv (game.play m) with ht
    by_cases hcut : beta ≤ max alpha e
    · rw [if_pos hcut]
      have hbe : beta ≤ e := by
        rcases le_max_iff.mp hcut with h | h
        · exact absurd h (not_le.mpr hab)
        · exact h
      have hbeste : max best e = e := max_eq_right ((hba.trans hab.le).trans hbe)
      have het : e ≤ t := hm.2.1 hbe
      rw [hbeste]
      refine ⟨fun hra => absurd (hra.trans_lt hab) (not_lt.mpr hbe), fun _ => ?_,
              fun _ hrb => absurd hbe (not_le.mpr hrb)⟩
      exact het.trans ((le_max_right best t).trans (le_foldl_max _ _))
    · rw [if_neg hcut]
      push_neg at hcut
      have hba' : max best e ≤ max alpha e := max_le_max hba le_rfl
      have hrec := ih (max best e) (max alpha e) beta hcut hba'
        (fun m' hm' a bt h => hch m' (List.mem_cons_of_mem m hm') a bt h)
      have heab : e < beta := (le_max_right alpha e).trans_lt hcut
      have hte : t ≤ e := by
        by_cases hea : e ≤ alpha
        · exact hm.1 hea
        · exact (hm.2.2 (not_le.mp hea) heab).ge
      set r := abMax ev game rest (max best e) (max alpha e) beta with hr
      set vrest := (rest.map fun m' => tv (game.play m')).foldl max (max best e) with hv
      refine ⟨?_, ?_, ?_⟩
      · intro hra
        have h1 : vrest ≤ r := hrec.1 (hra.trans (le_max_left alpha e))
        have h2 : (rest.map fun m' => tv (game.play m')).foldl max (max best t) ≤ vrest :=
          foldl_max_mono _ (max_le_max le_rfl hte)
        exact h2.trans h1
      · intro hbr
        have h1 : r ≤ vrest := hrec.2.1 hbr
        rcases foldl_max_mem (rest.map fun m' => tv (game.play m')) (max best e) with hmem | hmem
        · rw [← hv] at hmem
          exfalso
          have hlt : vrest < beta := by
            rw [hmem]
            exact max_lt (hba.trans_lt hab) heab
          exact absurd (hbr.trans h1) (not_le.mpr hlt)
        · exact h1.trans (elem_le_foldl_max _ hmem)
      · intro har hrb
        by_cases hra' : r ≤ max alpha e
        · have hbest : max best e ≤ r := abMax_ge_best ev game rest _ _ _
          have hre : r ≤ e := by
            rcases le_max_iff.mp hra' with h | h
            · exact absurd h (not_le.mpr har)
            · exact h
          have hr_eq_e : r = e := le_antisymm hre ((le_max_right best e).trans hbest)
          have hae : alpha < e := hr_eq_e ▸ har
          have hte' : e = t := hm.2.2 hae heab
          have hvrle : vrest ≤ r := hrec.1 hra'
          have hvle : (rest.map fun m' => tv (game.play m')).foldl max (max best t) ≤ r := by
            rw [foldl_max_le_iff]
            refine ⟨max_le (hba.trans har.le) ?_, fun x hx => (elem_le_foldl_max _ hx).trans hvrle⟩
            rw [← hte', ← hr_eq_e]
          have hrle : r ≤ (rest.map fun m' => tv (game.play m')).foldl max (max best t) := by
            have : r ≤ max best t := by
              rw [hr_eq_e, hte']
              exact le_max_right _ _
            exact this.trans (le_foldl_max _ _)
          exact le_antisymm hrle hvle
        · push_neg at hra'
          have hreq : r = vrest := hrec.2.2 hra' hrb
          have hvle : (rest.map fun m' => tv (game.play m')).foldl max (max best t) ≤ r := by
            rw [foldl_max_le_iff]
            refine ⟨max_le (hba.trans har.le)
              (hte.trans ((le_max_right alpha e).trans hra'.le)), fun x hx => ?_⟩
            exact (elem_le_foldl_max _ hx).trans hreq.ge
          have hrle : r ≤ (rest.map fun m' => tv (game.play m')).foldl max (max best t) := by
            rcases foldl_max_mem (rest.map fun m' => tv (game.play m')) (max best e) with hmem | hmem
            · exfalso
              rw [← hv] at hmem
              have hle : vrest ≤ max alpha e := by
                rw [hmem]
                exact max_le_max hba le_rfl
              exact absurd (hreq ▸ hle) (not_le.mpr hra')
            · exact hreq.le.trans (elem_le_foldl_max _ hmem)
          exact le_antisymm hrle hvle

theorem abMin_approx (ev : TicTacToe → Score → Score → Score) (tv : TicTacToe → Score)
    (game : TicTacToe) :
    ∀ (moves : List Point) (best alpha beta : Score), alpha < beta → beta ≤ best →
      (∀ m ∈ moves, ∀ a bt, a < bt →
        ABApprox (ev (game.play m) a bt) (tv (game.play m)) a bt) →
      ABApprox (abMin ev game moves best alpha beta)
        ((moves.map fun m => tv (game.play m)).foldl min best) alpha beta := by
  intro moves
  induction moves with
  | nil =>
    intro best alpha beta _ _ _
    exact ABApprox_refl _ _ _
  | cons m rest ih =>
    intro best alpha beta hab hbb hch
    have hm := hch m (List.mem_cons_self m rest) alpha beta hab
    simp only [abMin, List.map_cons, List.foldl_cons]
    set e := ev (game.play m) alpha beta with he
    set t := tv (game.play m) with ht
    by_cases hcut : min beta e ≤ alpha
    · rw [if_pos hcut]
      have hea : e ≤ alpha := by
        rcases min_le_iff.mp hcut with h | h
        · exact absurd h (not_le.mpr hab)
        · exact h
      have hbeste : min best e = e :=
        min_eq_right (hea.trans (hab.le.trans hbb))
      have hte : t ≤ e := hm.1 hea
      rw [hbeste]
      refine ⟨fun _ => ?_, fun hbr => absurd (hab.trans_le hbr) (not_lt.mpr hea),
              fun har _ => absurd hea (not_le.mpr har)⟩
      exact ((foldl_min_le _ _).trans (min_le_right best t)).trans hte
    · rw [if_neg hcut]
      push_neg at hcut
      have hbb' : min beta e ≤ min best e := min_le_min hbb le_rfl
      have hrec := ih (min best e) alpha (min beta e) hcut hbb'
        (fun m' hm' a bt h => hch m' (List.mem_cons_of_mem m hm') a bt h)
      have heab : alpha < e := hcut.trans_le (min_le_right beta e)
      have hte : e ≤ t := by
        by_cases hbe : beta ≤ e
        · exact hm.2.1 hbe
        · exact (hm.2.2 heab (not_le.mp hbe)).le
      set r := abMin ev game rest (min best e) alpha (min beta e) with hr
      set vrest := (rest.map fun m' => tv (game.play m')).foldl min (min best e) with hv
      refine ⟨?_, ?_, ?_⟩
      · intro hra
        have h1 : vrest ≤ r := hrec.1 hra
        rcases foldl_min_mem (rest.map fun m' => tv (game.play m')) (min best e) with hmem | hmem
        · rw [← hv] at hmem
          have hve : vrest = e := by
            rcases min_cases best e with ⟨hm1, _⟩ | ⟨hm1, _⟩
            · exfalso
              have hba2 : best ≤ alpha := by
                rw [hmem, hm1] at h1
                exact h1.trans hra
              exact absurd (hab.trans_le hbb) (not_lt.mpr hba2)
            · rw [hmem, hm1]
          have htee : t ≤ e := hm.1 (by rw [← hve]; exact h1.trans hra)
          have hvt : (rest.map fun m' => tv (game.play m')).foldl min (min best t) ≤ t :=
            (foldl_min_le _ _).trans (min_le_right best t)
          exact hvt.trans (htee.trans (hve ▸ h1))
        · exact (foldl_min_le_elem _ hmem).trans h1
      · intro hbr
        have h1 : r ≤ vrest := hrec.2.1 ((min_le_left beta e).trans hbr)
        rw [le_foldl_min_iff]
        have hrbest : r ≤ min best e := h1.trans (foldl_min_le _ _)
        refine ⟨le_min ((hrbest.trans (min_le_left best e))) ?_, fun x hx => ?_⟩
        · exact (hrbest.trans (min_le_right best e)).trans hte
        · exact h1.trans (foldl_min_le_elem _ hx)
      · intro har hrb
        by_cases hrb' : min beta e ≤ r
        · have hbest : r ≤ min best e := abMin_le_best ev game rest _ _ _
          have hre : e ≤ r := by
            rcases min_cases beta e with ⟨hm1, _⟩ | ⟨hm1, _⟩
            · exact absurd (hm1 ▸ hrb') (not_le.mpr hrb)
            · exact hm1 ▸ hrb'
          have hr_eq_e : r = e :=
            le_antisymm (hbest.trans (min_le_right best e)) hre
          have hbe : e < beta := hr_eq_e ▸ hrb
          have hte' : e = t := hm.2.2 (hr_eq_e ▸ har) hbe
          have hvrge : r ≤ vrest := hrec.2.1 hrb'
          have hrlev : r ≤ (rest.map fun m' => tv (game.play m')).foldl min (min best t) := by
            rw [le_foldl_min_iff]
            refine ⟨le_min (hrb.le.trans hbb) ?_, fun x hx => hvrge.trans (foldl_min_le_elem _ hx)⟩
            rw [← hte', ← hr_eq_e]
          have hvler : (rest.map fun m' => tv (game.play m')).foldl min (min best t) ≤ r := by
            have : min best t ≤ r := by
              rw [hr_eq_e, hte']
              exact min_le_right _ _
            exact (foldl_min_le _ _).trans this
          exact le_antisymm hrlev hvler
        · push_neg at hrb'
          have hreq : r = vrest := hrec.2.2 har hrb'
          have hrlev : r ≤ (rest.map fun m' => tv (game.play m')).foldl min (min best t) := by
            rw [le_foldl_min_iff]
            refine ⟨le_min (hrb.le.trans hbb)
              (((hreq.le.trans (foldl_min_le _ _)).trans (min_le_right best e)).trans hte),
              fun x hx => hreq.le.trans (foldl_min_le_elem _ hx)⟩
          have hvler : (rest.map fun m' => tv (game.play m')).foldl min (min best t) ≤ r := by
            rcases foldl_min_mem (rest.map fun m' => tv (game.play m')) (min best e) with hmem | hmem
            · exfalso
              rw [← hv] at hmem
              have hge : min beta e ≤ vrest := by
                rw [hmem]
                exact min_le_min hbb le_rfl
              exact absurd (hreq ▸ hge) (not_le.mpr hrb')
            · exact (foldl_min_le_elem _ hmem).trans hreq.ge
          exact le_antisymm hrlev hvler

theorem minimax_approx (b : Bot) :
    ∀ (d : ℕ) (g : TicTacToe) (M : Bool) (alpha beta : Score), alpha < beta →
      ABApprox (b.minimax d g M alpha beta) (fullMinimax b.player d g M) alpha beta := by
  intro d
  induction d with
  | zero =>
    intro g M alpha beta _
    exact ABApprox_refl _ _ _
  | succ d ih =>
    intro g M alpha beta hab
    simp only [Bot.minimax, fullMinimax]
    by_cases hgo : g.game_over
    · rw [if_pos hgo, if_pos hgo]
      exact ABApprox_refl _ _ _
    · rw [if_neg hgo, if_neg hgo]
      cases M with
      | false =>
        simp only [Bool.false_eq_true, if_false]
        exact abMin_approx (fun g' a bb => b.minimax d g' true a bb)
          (fun g' => fullMinimax b.player d g' true) g g.available_moves ⊤ alpha beta hab le_top
          (fun m _ a bt h => ih (g.play m) true a bt h)
      | true =>
        simp only [if_true]
        exact abMax_approx (fun g' a bb => b.minimax d g' false a bb)
          (fun g' => fullMinimax b.player d g' false) g g.available_moves ⊥ alpha beta hab bot_le
          (fun m _ a bt h => ih (g.play m) false a bt h)

theorem fin_lt_top (q : ℚ) : fin q < (⊤ : Score) :=
  WithBot.coe_lt_coe.mpr (WithTop.coe_lt_top q)

theorem bot_lt_fin (q : ℚ) : (⊥ : Score) < fin q :=
  WithBot.bot_lt_coe _

theorem WF_play {t : TicTacToe} (m : Point) (h : WF t) : WF (t.play m) := by
  obtain ⟨hg, hlen, hrows⟩ := h
  unfold TicTacToe.play TicTacToe.try_move
  by_cases hc : t.grid.cell m.1 m.2 != 0
  · rw [if_pos hc]
    exact ⟨hg, hlen, hrows⟩
  · rw [if_neg hc]
    refine ⟨hg, ?_, ?_⟩
    · simpa [Grid.setCell] using hlen
    · intro row hrow
      simp only [Grid.setCell] at hrow
      rcases List.mem_iff_getElem.mp hrow with ⟨i, hi, hrowi⟩
      rw [List.length_set] at hi
      by_cases him : i = m.1
      · subst him
        rw [List.getElem_set_self (by rw [List.length_set]; exact hi)] at hrowi
        rw [← hrowi, List.length_set]
        have hmem : t.grid.values.getD m.1 [] ∈ t.grid.values := by
          rw [List.getD_eq_getElem _ _ hi]
          exact List.getElem_mem hi
        exact hrows _ hmem
      · rw [List.getElem_set_ne (fun hx => him hx.symm)
          (by rw [List.length_set]; exact hi)] at hrowi
        rw [← hrowi]
        exact hrows _ (List.getElem_mem hi)

theorem mem_available_moves (t : TicTacToe) (m : Point) :
    m ∈ t.available_moves ↔
      m.1 < t.size ∧ m.2 < t.size ∧ t.grid.cell m.1 m.2 = 0 := by
  obtain ⟨r, c⟩ := m
  simp only [TicTacToe.available_moves, List.mem_flatMap, List.mem_filterMap, List.mem_range,
    Option.ite_none_right_eq_some, Option.some.injEq, Prod.mk.injEq]
  constructor
  · rintro ⟨r', hr', c', hc', h0, rfl, rfl⟩
    exact ⟨hr', hc', h0⟩
  · rintro ⟨hr, hc, h0⟩
    exact ⟨r, hr, c, hc, h0, rfl, rfl⟩

theorem full_false_iff (g : Grid) :
    g.full = false ↔ ∃ row ∈ g.values, 0 ∈ row := by
  rw [← Bool.not_eq_true, Grid.full]
  simp [List.all_eq_true]

theorem not_game_over_not_full {t : TicTacToe} (hgo : t.game_over = false) :
    t.grid.full = false := by
  by_cases h : t.grid.full
  · rw [TicTacToe.game_over, if_pos h] at hgo
    cases hgo
  · simpa using h

theorem available_moves_ne_nil {t : TicTacToe} (hwf : WF t) (hgo : t.game_over = false) :
    t.available_moves ≠ [] := by
  obtain ⟨hg, hlen, hrows⟩ := hwf
  obtain ⟨row, hrow, hzero⟩ := (full_false_iff t.grid).mp (not_game_over_not_full hgo)
  obtain ⟨r, hr, hrowr⟩ := List.mem_iff_getElem.mp hrow
  obtain ⟨c, hc, hcell⟩ := List.mem_iff_getElem.mp hzero
  have hcellrc : t.grid.cell r c = 0 := by
    rw [Grid.cell, List.getD_eq_getElem _ _ hr, hrowr,
      List.getD_eq_getElem _ _ hc, hcell]
  have hmem : ((r, c) : Point) ∈ t.available_moves := by
    rw [mem_available_moves]
    refine ⟨?_, ?_, hcellrc⟩
    · rw [← hlen]
      exact hr
    · rw [← hrows row hrow]
      exact hc
  exact List.ne_nil_of_mem hmem

theorem fullMinimax_finite (p : ℕ) :
    ∀ (d : ℕ) (g : TicTacToe) (M : Bool), WF g →
      ⊥ < fullMinimax p d g M ∧ fullMinimax p d g M < ⊤ := by
  intro d
  induction d with
  | zero =>
    intro g M _
    exact ⟨bot_lt_fin _, fin_lt_top _⟩
  | succ d ih =>
    intro g M hwf
    simp only [fullMinimax]
    by_cases hgo : g.game_over
    · rw [if_pos hgo]
      exact ⟨bot_lt_fin _, fin_lt_top _⟩
    · rw [if_neg hgo]
      have hne := available_moves_ne_nil hwf (by simpa using hgo)
      cases M with
      | false =>
        simp only [Bool.false_eq_true, if_false]
        constructor
        · rcases foldl_min_mem
            (g.available_moves.map fun m => fullMinimax p d (g.play m) true) ⊤ with hmem | hmem
          · rw [hmem]
            exact bot_lt_top
          · obtain ⟨m, _, heq⟩ := List.mem_map.mp hmem
            rw [← heq]
            exact (ih (g.play m) true (WF_play m hwf)).1
        · obtain ⟨m, hm⟩ := List.exists_mem_of_ne_nil _ hne
          exact (foldl_min_le_elem _ (List.mem_map_of_mem _ hm)).trans_lt
            (ih (g.play m) true (WF_play m hwf)).2
      | true =>
        simp only [if_true]
        constructor
        · obtain ⟨m, hm⟩ := List.exists_mem_of_ne_nil _ hne
          exact (ih (g.play m) false (WF_play m hwf)).1.trans_le
            (elem_le_foldl_max _ (List.mem_map_of_mem _ hm))
        · rcases foldl_max_mem
            (g.available_moves.map fun m => fullMinimax p d (g.play m) false) ⊥ with hmem | hmem
          · rw [hmem]
            exact bot_lt_top
          · obtain ⟨m, _, heq⟩ := List.mem_map.mp hmem
            rw [← heq]
            exact (ih (g.play m) false (WF_play m hwf)).2

theorem minimax_full_aux (b : Bot) (d : ℕ) (g : TicTacToe) (M : Bool) (hwf : WF g) :
    b.minimax d g M ⊥ ⊤ = fullMinimax b.player d g M := by
  obtain ⟨hb, ht⟩ := fullMinimax_finite b.player d g M hwf
  have h := minimax_approx b d g M ⊥ ⊤ bot_lt_top
  by_cases h1 : b.minimax d g M ⊥ ⊤ ≤ ⊥
  · exact absurd ((h.1 h1).trans h1) (not_le.mpr hb)
  · by_cases h2 : (⊤ : Score) ≤ b.minimax d g M ⊥ ⊤
    · exact absurd (h2.trans (h.2.1 h2)) (not_le.mpr ht)
    · push_neg at h1 h2
      exact h.2.2 h1 h2

/-- The score Bot.get_move computes for a root move: the pruned search on
the state after the move, at the root depth, minimizing next, full window. -/
def Bot.rootScore (b : Bot) (move : Point) : Score :=
  b.minimax (b.root_depth b.game.available_moves.length) (b.game.play move) false ⊥ ⊤

section ArgmaxFold

variable {α : Type} {β : Type} [LinearOrder β]

/-- One step of the best-so-far fold in Bot.get_move. -/
def bestStep (score : α → β) (acc : β × Option α) (x : α) : β × Option α :=
  if acc.1 < score x then (score x, some x) else acc

theorem foldl_bestStep_stay (score : α → β) (l : List α) (s : β) (mo : Option α)
    (h : ∀ x ∈ l, score x ≤ s) :
    l.foldl (bestStep score) (s, mo) = (s, mo) := by
  induction l with
  | nil => rfl
  | cons a l ih =>
    rw [List.foldl_cons, bestStep, if_neg (not_lt.mpr (h a (List.mem_cons_self a l)))]
    exact ih (fun x hx => h x (List.mem_cons_of_mem a hx))

theorem foldl_bestStep_argmax (score : α → β) :
    ∀ (l : List α) (s : β) (mo : Option α), (∃ x ∈ l, s < score x) →
      ∃ l₁ m l₂, l = l₁ ++ m :: l₂ ∧
        l.foldl (bestStep score) (s, mo) = (score m, some m) ∧
        (∀ y ∈ l, score y ≤ score m) ∧
        (∀ y ∈ l₁, score y < score m) ∧ s < score m := by
  intro l
  induction l with
  | nil =>
    rintro s mo ⟨x, hx, _⟩
    cases hx
  | cons a l ih =>
    rintro s mo hex
    rw [List.foldl_cons]
    by_cases h1 : s < score a
    · rw [bestStep, if_pos h1]
      by_cases h2 : ∃ x ∈ l, score a < score x
      · obtain ⟨l₁, m, l₂, hsplit, hfold, hall, hpre, hgt⟩ := ih (score a) (some a) h2
        refine ⟨a :: l₁, m, l₂, by rw [hsplit]; rfl, hfold, ?_, ?_, h1.trans hgt⟩
        · intro y hy
          rcases List.mem_cons.mp hy with rfl | hy
          · exact hgt.le
          · exact hall y hy
        · intro y hy
          rcases List.mem_cons.mp hy with rfl | hy
          · exact hgt
          · exact hpre y hy
      · push_neg at h2
        rw [foldl_bestStep_stay score l (score a) (some a) h2]
        refine ⟨[], a, l, rfl, rfl, ?_, by simp, h1⟩
        intro y hy
        rcases List.mem_cons.mp hy with rfl | hy
        · exact le_rfl
        · exact h2 y hy
    · rw [bestStep, if_neg h1]
      have hex' : ∃ x ∈ l, s < score x := by
        obtain ⟨x, hx, hsx⟩ := hex
        rcases List.mem_cons.mp hx with rfl | hx
        · exact absurd hsx h1
        · exact ⟨x, hx, hsx⟩
      obtain ⟨l₁, m, l₂, hsplit, hfold, hall, hpre, hgt⟩ := ih s mo hex'
      refine ⟨a :: l₁, m, l₂, by rw [hsplit]; rfl, hfold, ?_, ?_, hgt⟩
      · intro y hy
        rcases List.mem_cons.mp hy with rfl | hy
        · exact (not_lt.mp h1).trans hgt.le
        · exact hall y hy
      · intro y hy
        rcases List.mem_cons.mp hy with rfl | hy
        · exact (not_lt.mp h1).trans_lt hgt
        · exact hpre y hy

end ArgmaxFold

theorem get_move_eq_fold (b : Bot) :
    b.get_move = (b.game.available_moves.foldl (bestStep b.rootScore) (⊥, none)).2 := rfl

theorem get_move_argmax_aux (b : Bot) (hwf : WF b.game)
    (hne : b.game.available_moves ≠ []) :
    ∃ l₁ m l₂, b.game.available_moves = l₁ ++ m :: l₂ ∧
      b.get_move = some m ∧
      (∀ y ∈ b.game.available_moves, b.rootScore y ≤ b.rootScore m) ∧
      (∀ y ∈ l₁, b.rootScore y < b.rootScore m) := by
  obtain ⟨m0, hm0⟩ := List.exists_mem_of_ne_nil _ hne
  have hscore : ∀ y ∈ b.game.available_moves, ⊥ < b.rootScore y := by
    intro y hy
    rw [Bot.rootScore, minimax_full_aux b _ _ _ (WF_play y hwf)]
    exact (fullMinimax_finite b.player _ _ _ (WF_play y hwf)).1
  obtain ⟨l₁, m, m₂, hsplit, hfold, hall, hpre, _⟩ :=
    foldl_bestStep_argmax b.rootScore b.game.available_moves ⊥ none ⟨m0, hm0, hscore m0 hm0⟩
  exact ⟨l₁, m, m₂, hsplit, by rw [get_move_eq_fold, hfold], hall, hpre⟩

/-- Strict row-major order on coordinates. -/
def rmLt (p q : Point) : Prop := p.1 < q.1 ∨ (p.1 = q.1 ∧ p.2 < q.2)

theorem filterMap_ite {α β : Type} (P : α → Prop) [DecidablePred P] (f : α → β) (l : List α) :
    (l.filterMap fun a => if P a then some (f a) else none) =
      (l.filter fun a => decide (P a)).map f := by
  induction l with
  | nil => rfl
  | cons a l ih =>
    by_cases h : P a
    · simp [List.filterMap_cons, List.filter_cons, h, ih]
    · simp [List.filterMap_cons, List.filter_cons, h, ih]

theorem available_moves_sorted (t : TicTacToe) :
    List.Pairwise rmLt t.available_moves := by
  rw [TicTacToe.available_moves, List.flatMap_def, List.pairwise_flatten]
  constructor
  · intro l' hl'
    obtain ⟨r, _, rfl⟩ := List.mem_map.mp hl'
    rw [filterMap_ite (fun c => t.grid.cell r c = 0) (fun c => ((r, c) : Point))]
    rw [List.pairwise_map]
    refine List.Pairwise.imp (fun h => Or.inr ⟨rfl, h⟩) ?_
    exact List.Pairwise.sublist (List.filter_sublist _) (List.pairwise_lt_range _)
  · rw [List.pairwise_map]
    refine List.Pairwise.imp ?_ (List.pairwise_lt_range t.size)
    intro r r' hlt
    intro x hx y hy
    obtain ⟨c, _, hc⟩ := List.mem_filterMap.mp hx
    obtain ⟨c', _, hc'⟩ := List.mem_filterMap.mp hy
    have hx1 : x.1 = r := by
      by_cases h : t.grid.cell r c = 0
      · rw [if_pos h] at hc
        cases hc
        rfl
      · rw [if_neg h] at hc
        cases hc
    have hy1 : y.1 = r' := by
      by_cases h : t.grid.cell r' c' = 0
      · rw [if_pos h] at hc'
        cases hc'
        rfl
      · rw [if_neg h] at hc'
        cases hc'
    exact Or.inl (by rw [hx1, hy1]; exact hlt)

/-- Modelled on the spec's words: the candidate lines in the fixed priority
order — main diagonal, anti-diagonal, rows top-to-bottom, columns
left-to-right — each given as its coordinate list. -/
def spec_lines (t : TicTacToe) : List (List Point) :=
  ((List.range t.size).map fun i => ((i, i) : Point)) ::
    ((List.range t.size).map fun i => ((t.size - 1 - i, i) : Point)) ::
    (((List.range t.size).map fun r => (List.range t.size).map fun i => ((r, i) : Point)) ++
      ((List.range t.size).map fun c => (List.range t.size).map fun i => ((i, c) : Point)))

/-- Modelled on the spec's words: a non-empty line all of whose cells are
equal (to the cell at the line's first coordinate) and non-zero. -/
def uniformNonzero (t : TicTacToe) (line : List Point) : Bool :=
  !line.isEmpty &&
    (line.all fun q =>
      t.grid.cell q.1 q.2 == t.grid.cell (line.getD 0 (0, 0)).1 (line.getD 0 (0, 0)).2) &&
    (t.grid.cell (line.getD 0 (0, 0)).1 (line.getD 0 (0, 0)).2 != 0)

/-- Modelled on the spec's words for winning_line: the first candidate
line, in priority order, whose cells are all equal and non-zero; the empty
sequence on a full board; otherwise none. -/
def winning_line_spec (t : TicTacToe) : Option (List Point) :=
  match (spec_lines t).find? (uniformNonzero t) with
  | some l => some l
  | none => if t.grid.full then some [] else none

theorem all_map_general {α β : Type} (f : α → β) (l : List α) (p : β → Bool) :
    (l.map f).all p = l.all fun a => p (f a) := by
  induction l with
  | nil => rfl
  | cons a l ih => simp [List.all_cons, ih]

theorem all_range_getD {α : Type} (l : List α) (s : ℕ) (h : l.length = s) (d : α)
    (p : α → Bool) :
    ((List.range s).all fun i => p (l.getD i d)) = l.all p := by
  subst h
  rw [Bool.eq_iff_iff, List.all_eq_true, List.all_eq_true]
  constructor
  · intro hall x hx
    obtain ⟨i, hi, rfl⟩ := List.mem_iff_getElem.mp hx
    have hh := hall i (List.mem_range.mpr hi)
    rwa [List.getD_eq_getElem _ _ hi] at hh
  · intro hall i hi
    rw [List.mem_range] at hi
    rw [List.getD_eq_getElem _ _ hi]
    exact hall _ (List.getElem_mem hi)

theorem find?_congr_mem {α : Type} {l : List α} {p q : α → Bool}
    (h : ∀ x ∈ l, p x = q x) : l.find? p = l.find? q := by
  induction l with
  | nil => rfl
  | cons a l ih =>
    rw [List.find?_cons, List.find?_cons, ← h a (List.mem_cons_self a l)]
    cases p a
    · exact ih (fun x hx => h x (List.mem_cons_of_mem a hx))
    · rfl

theorem getD_zero_map_range {α : Type} (f : ℕ → α) (s : ℕ) (hs : 0 < s) (d : α) :
    ((List.range s).map f).getD 0 d = f 0 := by
  rw [List.getD_eq_getElem _ _ (by simpa using hs), List.getElem_map, List.getElem_range]

theorem isEmpty_map_range {α : Type} (f : ℕ → α) (s : ℕ) (hs : 0 < s) :
    ((List.range s).map f).isEmpty = false := by
  rw [← Bool.not_eq_true]
  rw [List.isEmpty_iff, List.map_eq_nil_iff, List.range_eq_nil]
  exact hs.ne'

theorem transposed_getD (g : Grid) (c : ℕ) (hc : c < g.size) :
    g.transposed_values.getD c [] = g.values.map fun row => row.getD c 0 := by
  rw [Grid.transposed_values, List.getD_eq_getElem _ _ (by simpa using hc),
    List.getElem_map, List.getElem_range]

theorem uniform_diag (t : TicTacToe) (hs : 0 < t.size) :
    uniformNonzero t ((List.range t.size).map fun i => ((i, i) : Point)) = t.diag_win := by
  rw [uniformNonzero, TicTacToe.diag_win, getD_zero_map_range _ _ hs,
    isEmpty_map_range _ _ hs,
    all_map_general (fun i => ((i, i) : Point)) (List.range t.size)]
  simp

theorem uniform_anti (t : TicTacToe) (hs : 0 < t.size) :
    uniformNonzero t ((List.range t.size).map fun i => ((t.size - 1 - i, i) : Point)) =
      t.anti_diag_win := by
  rw [uniformNonzero, TicTacToe.anti_diag_win, getD_zero_map_range _ _ hs,
    isEmpty_map_range _ _ hs,
    all_map_general (fun i => ((t.size - 1 - i, i) : Point)) (List.range t.size)]
  simp

theorem uniform_row (t : TicTacToe) (r : ℕ) (hr : r < t.size)
    (hlen : t.grid.values.length = t.size)
    (hrows : ∀ row ∈ t.grid.values, row.length = t.size) :
    uniformNonzero t ((List.range t.size).map fun i => ((r, i) : Point)) =
      lineWin (t.grid.values.getD r []) := by
  have hs : 0 < t.size := Nat.lt_of_le_of_lt (Nat.zero_le r) hr
  have hr' : r < t.grid.values.length := by
    rw [hlen]
    exact hr
  have hrowlen : (t.grid.values.getD r []).length = t.size := by
    rw [List.getD_eq_getElem _ _ hr']
    exact hrows _ (List.getElem_mem hr')
  rw [uniformNonzero, lineWin, getD_zero_map_range _ _ hs, isEmpty_map_range _ _ hs,
    all_map_general (fun i => ((r, i) : Point)) (List.range t.size),
    ← all_range_getD (t.grid.values.getD r []) t.size hrowlen 0]
  simp [Grid.cell]

theorem uniform_col (t : TicTacToe) (c : ℕ) (hc : c < t.size)
    (hg : t.grid.size = t.size) (hlen : t.grid.values.length = t.size) :
    uniformNonzero t ((List.range t.size).map fun i => ((i, c) : Point)) =
      lineWin (t.grid.transposed_values.getD c []) := by
  have hs : 0 < t.size := Nat.lt_of_le_of_lt (Nat.zero_le c) hc
  have h0' : 0 < t.grid.values.length := by
    rw [hlen]
    exact hs
  rw [transposed_getD t.grid c (by rw [hg]; exact hc)]
  rw [uniformNonzero, lineWin, getD_zero_map_range _ _ hs, isEmpty_map_range _ _ hs,
    all_map_general (fun i => ((i, c) : Point)) (List.range t.size)]
  have h0 : (t.grid.values.map fun row => row.getD c 0).getD 0 0 =
      (t.grid.values.getD 0 []).getD c 0 := by
    rw [List.getD_eq_getElem _ _ (by simpa using h0'), List.getElem_map,
      List.getD_eq_getElem _ _ h0']
  rw [h0, all_map_general (fun row => row.getD c 0) t.grid.values,
    ← all_range_getD t.grid.values t.size hlen []
      (fun row => row.getD c 0 == (t.grid.values.getD 0 []).getD c 0)]
  simp [Grid.cell]

/-- C3: winning_line checks lines in the fixed priority order main
diagonal, anti-diagonal, rows top-to-bottom, columns left-to-right, and
returns the coordinate list of the first line whose cells are all equal
and non-zero; with no such line it returns the empty sequence exactly on a
full board (tie sentinel) and the distinct "no line" value otherwise. -/
theorem winning_line_eq_spec (t : TicTacToe) (hwf : WF t) :
    t.winning_line = winning_line_spec t := by
  obtain ⟨hg, hlen, hrows⟩ := hwf
  by_cases hs : t.size = 0
  · have hv : t.grid.values = [] := List.length_eq_zero.mp (by rw [hlen, hs])
    rw [TicTacToe.winning_line, winning_line_spec, spec_lines]
    simp [TicTacToe.diag_win, TicTacToe.anti_diag_win, Grid.cell, hv, hs, Grid.full,
      uniformNonzero, lineWin]
  · have hs0 : 0 < t.size := Nat.pos_of_ne_zero hs
    rw [TicTacToe.winning_line, winning_line_spec, spec_lines]
    by_cases hd : t.diag_win
    · rw [if_pos hd, List.find?_cons_of_pos _ (by rw [uniform_diag t hs0]; exact hd)]
    · rw [if_neg hd, List.find?_cons_of_neg _ (by rw [uniform_diag t hs0]; exact hd)]
      by_cases ha : t.anti_diag_win
      · rw [if_pos ha, List.find?_cons_of_pos _ (by rw [uniform_anti t hs0]; exact ha)]
      · rw [if_neg ha, List.find?_cons_of_neg _ (by rw [uniform_anti t hs0]; exact ha)]
        rw [List.find?_append, List.find?_map, List.find?_map]
        simp only [Function.comp_def]
        rw [find?_congr_mem (fun r hr =>
            uniform_row t r (List.mem_range.mp hr) hlen hrows),
          find?_congr_mem (fun c hc =>
            uniform_col t c (List.mem_range.mp hc) hg hlen)]
        cases hfr : (List.range t.size).find? fun r => lineWin (t.grid.values.getD r []) with
        | some r => simp
        | none =>
          simp only [Option.map_none', Option.none_or]
          cases hfc : (List.range t.size).find?
              fun c => lineWin (t.grid.transposed_values.getD c []) with
          | some c => simp
          | none => simp

theorem cell_setCell_same (g : Grid) (r c v : ℕ) (hr : r < g.values.length)
    (hc : c < (g.values.getD r []).length) :
    (g.setCell r c v).cell r c = v := by
  rw [Grid.setCell, Grid.cell]
  simp only
  have houter : (g.values.set r ((g.values.getD r []).set c v)).getD r []
      = (g.values.getD r []).set c v := by
    rw [List.getD_eq_getElem _ _ (by rw [List.length_set]; exact hr)]
    exact List.getElem_set_self (by rw [List.length_set]; exact hr)
  rw [houter]
  rw [List.getD_eq_getElem _ _ (by rw [List.length_set]; exact hc)]
  exact List.getElem_set_self (by rw [List.length_set]; exact hc)

theorem cell_setCell_other (g : Grid) (r c v r' c' : ℕ) (h : (r', c') ≠ (r, c)) :
    (g.setCell r c v).cell r' c' = g.cell r' c' := by
  rw [Grid.setCell, Grid.cell, Grid.cell]
  simp only
  by_cases hrr : r' = r
  · subst hrr
    have hcc : c' ≠ c := by
      intro he
      exact h (by rw [he])
    by_cases hlt : r' < g.values.length
    · have houter : (g.values.set r' ((g.values.getD r' []).set c v)).getD r' []
          = (g.values.getD r' []).set c v := by
        rw [List.getD_eq_getElem _ _ (by rw [List.length_set]; exact hlt)]
        exact List.getElem_set_self (by rw [List.length_set]; exact hlt)
      rw [houter]
      by_cases hclt : c' < (g.values.getD r' []).length
      · rw [List.getD_eq_getElem _ _ (by rw [List.length_set]; exact hclt),
          List.getElem_set_ne (fun he => hcc he.symm) (by rw [List.length_set]; exact hclt)]
        rw [List.getD_eq_getElem _ _ hclt]
      · have h1 : ((g.values.getD r' []).set c v).getD c' 0 = 0 :=
          List.getD_eq_default _ _ (by rw [List.length_set]; omega)
        have h2 : (g.values.getD r' []).getD c' 0 = 0 :=
          List.getD_eq_default _ _ (by omega)
        rw [h1, h2]
    · have h1 : (g.values.set r' ((g.values.getD r' []).set c v)).getD r' [] = ([] : List ℕ) :=
        List.getD_eq_default _ _ (by rw [List.length_set]; omega)
      have h2 : g.values.getD r' [] = ([] : List ℕ) :=
        List.getD_eq_default _ _ (by omega)
      rw [h1, h2]
  · have h1 : (g.values.set r ((g.values.getD r []).set c v)).getD r' []
        = g.values.getD r' [] := by
      by_cases hlt : r' < g.values.length
      · rw [List.getD_eq_getElem _ _ (by rw [List.length_set]; exact hlt),
          List.getElem_set_ne (fun he => hrr he.symm) (by rw [List.length_set]; exact hlt)]
        rw [List.getD_eq_getElem _ _ hlt]
      · rw [List.getD_eq_default _ _ (by rw [List.length_set]; omega),
          List.getD_eq_default _ _ (by omega)]
    rw [h1]

theorem replicate_getD_zero (s : ℕ) (c : ℕ) : (List.replicate s (0 : ℕ)).getD c 0 = 0 := by
  by_cases hc : c < s
  · rw [List.getD_eq_getElem _ _ (by simpa using hc)]
    exact List.getElem_replicate _ _
  · rw [List.getD_eq_default _ _ (by simpa using not_lt.mp hc)]

theorem cell_init (s r c : ℕ) : (Grid.init s).cell r c = 0 := by
  rw [Grid.init, Grid.cell]
  simp only
  have h1 : (List.replicate s (List.replicate s (0 : ℕ))).getD r [] = List.replicate s (0 : ℕ) ∨
      (List.replicate s (List.replicate s (0 : ℕ))).getD r [] = [] := by
    by_cases hr : r < s
    · left
      rw [List.getD_eq_getElem _ _ (by simpa using hr)]
      exact List.getElem_replicate _ _
    · right
      exact List.getD_eq_default _ _ (by simpa using not_lt.mp hr)
  rcases h1 with h | h
  · rw [h]
    exact replicate_getD_zero s c
  · rw [h]
    rfl

theorem lineWin_replicate_zero (s : ℕ) : lineWin (List.replicate s (0 : ℕ)) = false := by
  rw [lineWin, replicate_getD_zero]
  simp

theorem game_over_init (num_players s : ℕ) (hs : 3 ≤ s) :
    (TicTacToe.mk num_players s 1 (Grid.init s)).game_over = false := by
  have hs0 : 0 < s := by omega
  have hfull : (Grid.init s).full = false := by
    rw [full_false_iff]
    exact ⟨List.replicate s 0, List.mem_replicate.mpr ⟨hs0.ne', rfl⟩,
      List.mem_replicate.mpr ⟨hs0.ne', rfl⟩⟩
  have hrow : ∀ row ∈ (Grid.init s).values, lineWin row = false := by
    intro row hmem
    rw [Grid.init] at hmem
    obtain ⟨-, rfl⟩ := List.mem_replicate.mp hmem
    exact lineWin_replicate_zero s
  have hany : (Grid.init s).values.any lineWin = false := by
    rw [← Bool.not_eq_true, List.any_eq_true]
    rintro ⟨row, hmem, hlw⟩
    rw [hrow row hmem] at hlw
    cases hlw
  have htcol : ∀ col ∈ (Grid.init s).transposed_values, lineWin col = false := by
    intro col hmem
    rw [Grid.transposed_values] at hmem
    obtain ⟨c, -, rfl⟩ := List.mem_map.mp hmem
    have hmr : (Grid.init s).values.map (fun row => row.getD c 0) =
        List.replicate s (0 : ℕ) := by
      rw [Grid.init]
      simp only [List.map_replicate, replicate_getD_zero]
    rw [hmr]
    exact lineWin_replicate_zero s
  have htany : (Grid.init s).transposed_values.any lineWin = false := by
    rw [← Bool.not_eq_true, List.any_eq_true]
    rintro ⟨col, hmem, hlw⟩
    rw [htcol col hmem] at hlw
    cases hlw
  rw [TicTacToe.game_over]
  have hd : (TicTacToe.mk num_players s 1 (Grid.init s)).diag_win = false := by
    rw [TicTacToe.diag_win]
    simp [cell_init]
  have hant : (TicTacToe.mk num_players s 1 (Grid.init s)).anti_diag_win = false := by
    rw [TicTacToe.anti_diag_win]
    simp [cell_init]
  simp only [hfull, hd, hant, hany, htany]
  rfl

/-- Modelled on the spec's words for the leaf evaluator: +10 when the
agent is the sole winner, -10 when a single other player is, 0 on a
multi-winner tie, otherwise the sum of ±0.5 one-ply threat contributions. -/
def evaluate_state_spec (game : TicTacToe) (player : ℕ) : ℚ :=
  if game.winners = [player] then 10
  else if game.winners.length = 1 ∧ game.winners ≠ [player] then -10
  else if 1 < game.winners.length then 0
  else (game.available_moves.map fun move =>
      if (game.play move).winners = [player] then (0.5 : ℚ)
      else if (game.play move).winners.length = 1 ∧ (game.play move).winners ≠ [player]
        then -0.5 else 0).sum

theorem foldl_score_eq_sum (game : TicTacToe) (player : ℕ) (l : List Point) : ∀ a : ℚ,
    l.foldl (fun score move =>
      if (game.play move).winners = [player] then score + 0.5
      else if (game.play move).winners.length = 1 then score - 0.5
      else score) a
    = a + (l.map fun move =>
      if (game.play move).winners = [player] then (0.5 : ℚ)
      else if (game.play move).winners.length = 1 then -0.5 else 0).sum := by
  induction l with
  | nil =>
    intro a
    simp
  | cons m l ih =>
    intro a
    rw [List.foldl_cons, List.map_cons, List.sum_cons]
    by_cases h1 : (game.play m).winners = [player]
    · rw [if_pos h1, if_pos h1, ih]
      ring
    · rw [if_neg h1, if_neg h1]
      by_cases h2 : (game.play m).winners.length = 1
      · rw [if_pos h2, if_pos h2, ih]
        ring
      · rw [if_neg h2, if_neg h2, ih]
        ring

/-- C9: the leaf evaluator returns +10 when winners() is exactly the
singleton of the agent's player, -10 when it is a singleton of another
player, 0 when it has more than one element, and otherwise the sum over
the available moves of +0.5 / -0.5 / 0 according to whether simulating the
move makes the agent, some other single player, or nobody the sole
winner. -/
theorem evaluate_state_eq_spec (game : TicTacToe) (player : ℕ) :
    Bot.evaluate_state game player = evaluate_state_spec game player := by
  rw [Bot.evaluate_state, evaluate_state_spec]
  by_cases h1 : game.winners = [player]
  · rw [if_pos h1, if_pos h1]
  · rw [if_neg h1, if_neg h1]
    by_cases h2 : game.winners.length = 1
    · rw [if_pos h2, if_pos (show game.winners.length = 1 ∧ game.winners ≠ [player] from
        ⟨h2, h1⟩)]
    · rw [if_neg h2, if_neg (show ¬(game.winners.length = 1 ∧ game.winners ≠ [player]) from
        fun hx => h2 hx.1)]
      by_cases h3 : 1 < game.winners.length
      · rw [if_pos h3, if_pos h3]
      · rw [if_neg h3, if_neg h3]
        rw [foldl_score_eq_sum, zero_add]
        congr 1
        apply List.map_congr_left
        intro m _
        by_cases hw1 : (game.play m).winners = [player]
        · rw [if_pos hw1, if_pos hw1]
        · rw [if_neg hw1, if_neg hw1]
          by_cases hw2 : (game.play m).winners.length = 1
          · rw [if_pos hw2, if_pos (show (game.play m).winners.length = 1 ∧
              (game.play m).winners ≠ [player] from ⟨hw2, hw1⟩)]
          · rw [if_neg hw2, if_neg (show ¬((game.play m).winners.length = 1 ∧
              (game.play m).winners ≠ [player]) from fun hx => hw2 hx.1)]

theorem bindOk {α β : Type} (x : α) (f : α → Except String β) :
    (Except.ok x >>= f) = f x := rfl

theorem pyIndex_ok {α : Type} (l : List α) (n : ℕ) (h : n < l.length) :
    pyIndex l (n : ℤ) = .ok l[n] := by
  simp only [pyIndex]
  rw [if_neg (show ¬ ((n : ℤ) < 0) by omega)]
  rw [if_pos (show (0 : ℤ) ≤ (n : ℤ) by omega)]
  rw [Int.toNat_natCast, List.get?_eq_getElem?, List.getElem?_eq_getElem h]

theorem pySet_ok {α : Type} (l : List α) (n : ℕ) (v : α) (h : n < l.length) :
    pySet l (n : ℤ) v = .ok (l.set n v) := by
  simp only [pySet]
  rw [if_neg (show ¬ ((n : ℤ) < 0) by omega)]
  rw [if_pos (show (0 : ℤ) ≤ (n : ℤ) ∧ ((n : ℤ)).toNat < l.length from
    ⟨by omega, by rw [Int.toNat_natCast]; exact h⟩)]
  rw [Int.toNat_natCast]

/-- On in-bounds coordinates the raw Python Grid.get_cell agrees with the
pure in-bounds read `Grid.cell` used by the game embedding. -/
theorem get_cell_agrees (g : Grid) (r c : ℕ) (hlen : g.values.length = g.size)
    (hrow : (g.values.getD r []).length = g.size) (hr : r < g.size) (hc : c < g.size) :
    g.get_cell ((r : ℤ), (c : ℤ)) = .ok (g.cell r c) := by
  have hr' : r < g.values.length := by
    rw [hlen]
    exact hr
  have hc' : c < (g.values.getD r []).length := by
    rw [hrow]
    exact hc
  have hc'' : c < g.values[r].length := by
    rwa [List.getD_eq_getElem _ _ hr'] at hc'
  rw [Grid.get_cell, if_neg (by rintro ⟨h1 | h1, -⟩ <;> omega)]
  rw [pyIndex_ok g.values r hr', bindOk]
  rw [pyIndex_ok _ c hc'']
  rw [Grid.cell, List.getD_eq_getElem _ _ hr', List.getD_eq_getElem _ _ hc'']

/-- On in-bounds coordinates the raw Python Grid.change_value agrees with
the pure in-bounds write `Grid.setCell`. -/
theorem change_value_agrees (g : Grid) (r c v : ℕ) (hlen : g.values.length = g.size)
    (hrow : (g.values.getD r []).length = g.size) (hr : r < g.size) (hc : c < g.size) :
    g.change_value ((r : ℤ), (c : ℤ)) v = .ok (g.setCell r c v) := by
  have hr' : r < g.values.length := by
    rw [hlen]
    exact hr
  have hc' : c < (g.values.getD r []).length := by
    rw [hrow]
    exact hc
  have hc'' : c < g.values[r].length := by
    rwa [List.getD_eq_getElem _ _ hr'] at hc'
  rw [Grid.change_value, if_neg (by rintro ⟨h1 | h1, -⟩ <;> omega)]
  rw [pyIndex_ok g.values r hr', bindOk]
  rw [pySet_ok _ c v hc'', bindOk]
  rw [pySet_ok g.values r _ hr', bindOk]
  rw [Grid.setCell, List.getD_eq_getElem _ _ hr']
  rfl

/-- A fixed demonstration game (fresh 3×3, two players) and bot, used only
to instantiate witnesses of the general theorems at a concrete input. -/
def demo_game : TicTacToe := ⟨2, 3, 1, Grid.init 3⟩

/-- A bot playing `demo_game` as player 1. -/
def demo_bot : Bot := ⟨demo_game, 1⟩

instance WF_decidable (t : TicTacToe) : Decidable (WF t) := by
  unfold WF
  infer_instance

/-- C1: for every well-formed state, every depth budget and maximizing
flag, the alpha-beta-pruned minimax at the initial window (-∞, +∞) returns
exactly the unpruned full minimax value at the same depth with the same
leaf evaluator; consequently every root-move score computed inside
get_move equals the unpruned minimax value of that child at the chosen
depth. -/
theorem alphabeta_pruning_equiv (b : Bot) (d : ℕ) (g : TicTacToe) (maximizing : Bool)
    (hwf : WF g) :
    b.minimax d g maximizing ⊥ ⊤ = fullMinimax b.player d g maximizing ∧
    (WF b.game → ∀ m ∈ b.game.available_moves,
      b.rootScore m = fullMinimax b.player
        (b.root_depth b.game.available_moves.length) (b.game.play m) false) := by
  refine ⟨minimax_full_aux b d g maximizing hwf, fun hbw m _ => ?_⟩
  rw [Bot.rootScore]
  exact minimax_full_aux b _ _ _ (WF_play m hbw)

theorem alphabeta_pruning_equiv_witness :
    demo_bot.minimax 2 demo_game true ⊥ ⊤ = fullMinimax 1 2 demo_game true ∧
    (WF demo_bot.game → ∀ m ∈ demo_bot.game.available_moves,
      demo_bot.rootScore m = fullMinimax 1
        (demo_bot.root_depth demo_bot.game.available_moves.length)
        (demo_bot.game.play m) false) :=
  alphabeta_pruning_equiv demo_bot 2 demo_game true (by decide)

/-- C2 (code bug): the bounds guard of Grid.get_cell and
Grid.change_value joins its two range checks with `and` instead of `or`,
so a location with only one coordinate out of range slips past the guard;
with row -1 and an in-range column both operations silently wrap to the
last row (Python negative indexing) instead of failing. -/
theorem get_cell_bounds_bug :
    (Grid.get_cell ⟨3, [[1, 2, 0], [0, 0, 0], [2, 1, 0]]⟩ (-1, 0) = .ok 2) ∧
    (Grid.change_value ⟨3, [[1, 2, 0], [0, 0, 0], [2, 1, 0]]⟩ (-1, 0) 1 =
      .ok ⟨3, [[1, 2, 0], [0, 0, 0], [1, 1, 0]]⟩) := by
  exact ⟨rfl, rfl⟩

theorem winning_line_eq_spec_witness :
    demo_game.winning_line = winning_line_spec demo_game :=
  winning_line_eq_spec demo_game (by decide)

/-- C4: winners is fully determined by winning_line: "no line" gives the
empty winner set, the empty-sequence tie sentinel gives the full set
{1..num_players}, and a non-empty line gives the singleton holding the
cell value at the line's first coordinate. -/
theorem winners_cases (t : TicTacToe) :
    (t.winning_line = none → t.winners = []) ∧
    (t.winning_line = some [] → t.winners = (List.range t.num_players).map (· + 1)) ∧
    (∀ p l, t.winning_line = some (p :: l) → t.winners = [t.grid.cell p.1 p.2]) := by
  refine ⟨fun h => ?_, fun h => ?_, fun p l h => ?_⟩ <;>
    rw [TicTacToe.winners, h]

/-- C5: try_move on an in-bounds move of a well-formed state: an occupied
target returns false and changes nothing; an empty target writes
cur_player into that cell, leaves every other cell unchanged, advances
cur_player to (cur_player mod num_players) + 1 and returns true — so after
k successful moves from a fresh state cur_player is (k mod num_players)+1. -/
theorem try_move_spec (t : TicTacToe) (move : Point) (hwf : WF t)
    (hr : move.1 < t.size) (hc : move.2 < t.size) :
    (t.grid.cell move.1 move.2 ≠ 0 → t.try_move move = (false, t)) ∧
    (t.grid.cell move.1 move.2 = 0 →
      (t.try_move move).1 = true ∧
      (t.try_move move).2.grid.cell move.1 move.2 = t.cur_player ∧
      (t.try_move move).2.cur_player = t.cur_player % t.num_players + 1 ∧
      (∀ p : Point, p ≠ move →
        (t.try_move move).2.grid.cell p.1 p.2 = t.grid.cell p.1 p.2) ∧
      (∀ k : ℕ, t.cur_player = k % t.num_players + 1 →
        (t.try_move move).2.cur_player = (k + 1) % t.num_players + 1)) := by
  obtain ⟨hg, hlen, hrows⟩ := hwf
  have hr' : move.1 < t.grid.values.length := by
    rw [hlen]
    exact hr
  have hrowlen : (t.grid.values.getD move.1 []).length = t.size := by
    rw [List.getD_eq_getElem _ _ hr']
    exact hrows _ (List.getElem_mem hr')
  have hc' : move.2 < (t.grid.values.getD move.1 []).length := by
    rw [hrowlen]
    exact hc
  constructor
  · intro h
    rw [TicTacToe.try_move, if_pos (by simpa using h)]
  · intro h
    rw [TicTacToe.try_move, if_neg (by simpa using h)]
    refine ⟨rfl, ?_, rfl, ?_, ?_⟩
    · exact cell_setCell_same t.grid move.1 move.2 t.cur_player hr' hc'
    · intro p hp
      exact cell_setCell_other t.grid move.1 move.2 t.cur_player p.1 p.2
        (by simpa using hp)
    · intro k hk
      simp only
      rw [hk]
      have hmod : (k % t.num_players + 1) % t.num_players = (k + 1) % t.num_players := by
        simp [Nat.add_mod]
      rw [hmod]

theorem try_move_spec_witness :
    (demo_game.grid.cell 0 0 ≠ 0 → demo_game.try_move (0, 0) = (false, demo_game)) ∧
    (demo_game.grid.cell 0 0 = 0 →
      (demo_game.try_move (0, 0)).1 = true ∧
      (demo_game.try_move (0, 0)).2.grid.cell 0 0 = demo_game.cur_player ∧
      (demo_game.try_move (0, 0)).2.cur_player =
        demo_game.cur_player % demo_game.num_players + 1 ∧
      (∀ p : Point, p ≠ (0, 0) →
        (demo_game.try_move (0, 0)).2.grid.cell p.1 p.2 = demo_game.grid.cell p.1 p.2) ∧
      (∀ k : ℕ, demo_game.cur_player = k % demo_game.num_players + 1 →
        (demo_game.try_move (0, 0)).2.cur_player =
          (k + 1) % demo_game.num_players + 1)) :=
  try_move_spec demo_game (0, 0) (by decide) (by decide) (by decide)

/-- C6: construction fails exactly when num_players < 2, num_players > 4,
size < 3, size > 7, or size = 3 with more than two players; a successful
construction has cur_player 1, an all-zero board, is not game-over, and is
well-formed. -/
theorem make_spec (num_players size : ℕ) :
    ((∃ e, TicTacToe.make num_players size = .error e) ↔
      num_players < 2 ∨ num_players > 4 ∨ size < 3 ∨ size > 7 ∨
        (size = 3 ∧ num_players > 2)) ∧
    (∀ t, TicTacToe.make num_players size = .ok t →
      t.cur_player = 1 ∧ (∀ r c, t.grid.cell r c = 0) ∧
        t.game_over = false ∧ WF t) := by
  rw [TicTacToe.make]
  split_ifs with h1 h2 h3 h4 h5
  · exact ⟨iff_of_true ⟨_, rfl⟩ (Or.inl h1), fun t ht => by cases ht⟩
  · exact ⟨iff_of_true ⟨_, rfl⟩ (Or.inr (Or.inl h2)), fun t ht => by cases ht⟩
  · exact ⟨iff_of_true ⟨_, rfl⟩ (Or.inr (Or.inr (Or.inl h3))), fun t ht => by cases ht⟩
  · exact ⟨iff_of_true ⟨_, rfl⟩ (Or.inr (Or.inr (Or.inr (Or.inl h4)))),
      fun t ht => by cases ht⟩
  · exact ⟨iff_of_true ⟨_, rfl⟩ (Or.inr (Or.inr (Or.inr (Or.inr h5)))),
      fun t ht => by cases ht⟩
  · constructor
    · constructor
      · rintro ⟨e, he⟩
        cases he
      · intro hor
        rcases hor with h | h | h | h | h
        · exact absurd h h1
        · exact absurd h h2
        · exact absurd h h3
        · exact absurd h h4
        · exact absurd h h5
    · intro t ht
      rw [Except.ok.injEq] at ht
      subst ht
      refine ⟨rfl, fun r c => cell_init size r c,
        game_over_init num_players size (by omega), rfl, ?_, ?_⟩
      · rw [Grid.init]
        exact List.length_replicate _ _
      · intro row hrow
        rw [Grid.init] at hrow
        obtain ⟨-, rfl⟩ := List.mem_replicate.mp hrow
        exact List.length_replicate _ _

/-- C7: the root search depth in get_move equals the available-move count
on a 3×3 board, and min(available_move_count, BASE - (size - OFFSET)) with
BASE = 8 and OFFSET = 0 on larger boards: depth 4 at size 4, strictly
decreasing to 1 as size reaches 7. -/
theorem root_depth_policy :
    ∃ BASE OFFSET : ℕ, ∀ (b : Bot) (n : ℕ),
      (b.game.size = 3 → b.root_depth n = n) ∧
      (b.game.size > 3 → b.root_depth n = min n (BASE - (b.game.size - OFFSET))) ∧
      BASE - (4 - OFFSET) = 4 ∧ BASE - (7 - OFFSET) = 1 ∧
      (∀ s : ℕ, 4 ≤ s → s < 7 → BASE - ((s + 1) - OFFSET) < BASE - (s - OFFSET)) := by
  refine ⟨8, 0, fun b n => ⟨fun h => ?_, fun h => ?_, rfl, rfl, fun s h4 h7 => by omega⟩⟩
  · rw [Bot.root_depth, if_pos h]
  · rw [Bot.root_depth, if_neg (by omega), min_comm]
    simp

/-- C8: available_moves lists exactly the empty in-bounds cells in strict
row-major order, and get_move returns the first move in that enumeration
attaining the maximum root score (the strict > comparison keeps the first
maximiser, making row-major order the tie-break). -/
theorem get_move_first_argmax (b : Bot) (hwf : WF b.game)
    (hne : b.game.available_moves ≠ []) :
    List.Pairwise rmLt b.game.available_moves ∧
    (∀ m : Point, m ∈ b.game.available_moves ↔
      m.1 < b.game.size ∧ m.2 < b.game.size ∧ b.game.grid.cell m.1 m.2 = 0) ∧
    ∃ l₁ m l₂, b.game.available_moves = l₁ ++ m :: l₂ ∧
      b.get_move = some m ∧
      (∀ y ∈ b.game.available_moves, b.rootScore y ≤ b.rootScore m) ∧
      (∀ y ∈ l₁, b.rootScore y < b.rootScore m) :=
  ⟨available_moves_sorted b.game, fun m => mem_available_moves b.game m,
    get_move_argmax_aux b hwf hne⟩

theorem get_move_first_argmax_witness :
    List.Pairwise rmLt demo_bot.game.available_moves ∧
    (∀ m : Point, m ∈ demo_bot.game.available_moves ↔
      m.1 < demo_bot.game.size ∧ m.2 < demo_bot.game.size ∧
        demo_bot.game.grid.cell m.1 m.2 = 0) ∧
    ∃ l₁ m l₂, demo_bot.game.available_moves = l₁ ++ m :: l₂ ∧
      demo_bot.get_move = some m ∧
      (∀ y ∈ demo_bot.game.available_moves,
        demo_bot.rootScore y ≤ demo_bot.rootScore m) ∧
      (∀ y ∈ l₁, demo_bot.rootScore y < demo_bot.rootScore m) :=
  get_move_first_argmax demo_bot (by decide) (by decide)

/-- C10: on any well-formed state with at least one available move,
get_move terminates normally and returns some element of available_moves;
its root score strictly exceeds the -∞ sentinel, so the best-move variable
is assigned on the first iteration and never left unset. -/
theorem get_move_total (b : Bot) (hwf : WF b.game)
    (hne : b.game.available_moves ≠ []) :
    ∃ m, b.get_move = some m ∧ m ∈ b.game.available_moves ∧ ⊥ < b.rootScore m := by
  obtain ⟨l₁, m, l₂, hsplit, hret, hall, -⟩ := get_move_argmax_aux b hwf hne
  refine ⟨m, hret, ?_, ?_⟩
  · rw [hsplit]
    exact List.mem_append_right _ (List.mem_cons_self m l₂)
  · rw [Bot.rootScore, minimax_full_aux b _ _ _ (WF_play m hwf)]
    exact (fullMinimax_finite b.player _ _ _ (WF_play m hwf)).1

theorem get_move_total_witness :
    ∃ m, demo_bot.get_move = some m ∧ m ∈ demo_bot.game.available_moves ∧
      ⊥ < demo_bot.rootScore m :=
  get_move_total demo_bot (by decide) (by decide)

end TTT
